import Mathlib

set_option maxRecDepth 100000

/-!
Shallow embedding of the particle background animation system
(particles module of the get-meal repository).

Numbers are modelled as rationals; JavaScript float literals such as 0.5,
0.2 and 16.67 become the exact rationals 1/2, 1/5 and 1667/100.  The
strict-distance comparison `Math.sqrt(d2) < maxDistance` of the source is
embedded as `d2 < maxDistance ^ 2`, which agrees with it whenever the
threshold is nonnegative (lemma sqrt_lt_iff_sq below).  Randomness
(Math.random in Particle.reset) is abstracted as an oracle argument where
it matters (particle creation in init).  The frame-callback ids returned
by requestAnimationFrame are modelled as `Option Nat` (null vs a nonzero
id), and wall-clock times as rationals.
-/

namespace Particles

/-- An rgba colour from the CONFIG object; the alpha channel is the only
numerically relevant component. -/
structure Color where
  r : ℕ
  g : ℕ
  b : ℕ
  a : ℚ
deriving DecidableEq

/-- The CONFIG object of the particles module. -/
structure Config where
  particleCount : ℕ
  maxParticleSize : ℚ
  minParticleSize : ℚ
  maxSpeed : ℚ
  minSpeed : ℚ
  connectionDistance : ℚ
  maxConnections : ℕ
  particleColor : Color
  lineColor : Color
  fps : ℕ
  pauseWhenHidden : Bool
deriving DecidableEq

/-- The literal CONFIG of the source. -/
def CONFIG : Config :=
  { particleCount := 50
    maxParticleSize := 3
    minParticleSize := 1
    maxSpeed := 1 / 2
    minSpeed := 1 / 10
    connectionDistance := 120
    maxConnections := 3
    particleColor := ⟨22, 163, 74, 3 / 5⟩
    lineColor := ⟨22, 163, 74, 1 / 5⟩
    fps := 60
    pauseWhenHidden := true }

/-- A particle: position, velocity, size, opacity and the per-frame
connection counter, together with the canvas dimensions captured at
construction time. -/
structure Particle where
  canvasWidth : ℚ
  canvasHeight : ℚ
  x : ℚ
  y : ℚ
  size : ℚ
  speedX : ℚ
  speedY : ℚ
  opacity : ℚ
  connections : ℕ
deriving DecidableEq

/-- The raw position increment of Particle.update, before wrap-around:
`this.x += this.speedX * motionScale * deltaTime` and likewise for y. -/
def Particle.displaced (p : Particle) (motionScale deltaTime : ℚ) : ℚ × ℚ :=
  (p.x + p.speedX * motionScale * deltaTime,
   p.y + p.speedY * motionScale * deltaTime)

/-- Wrap-around of one coordinate: `if (v > bound) v = 0; if (v < 0) v = bound;`
(two sequential conditionals, exactly as in the source). -/
def wrapCoord (bound v : ℚ) : ℚ :=
  let v1 := if v > bound then 0 else v
  if v1 < 0 then bound else v1

/-- Particle.update: displace by velocity scaled by motionScale and
deltaTime, wrap each coordinate, and reset the connection counter. -/
def Particle.update (p : Particle) (motionScale deltaTime : ℚ) : Particle :=
  { p with
    x := wrapCoord p.canvasWidth (p.displaced motionScale deltaTime).1
    y := wrapCoord p.canvasHeight (p.displaced motionScale deltaTime).2
    connections := 0 }

/-- Squared Euclidean distance; the source computes
`Math.sqrt(dx*dx + dy*dy)` and compares it with connectionDistance, we
keep the square and compare with the squared threshold. -/
def distSq (x1 y1 x2 y2 : ℚ) : ℚ :=
  let dx := x2 - x1
  let dy := y2 - y1
  dx * dx + dy * dy

/-- A drawn connection line: the indices of the two endpoints
(outer index first) and the squared distance between them; its stroke
alpha in the source is `lineColor.a * (1 - sqrt d2 / connectionDistance)`. -/
structure Edge where
  i : ℕ
  j : ℕ
  d2 : ℚ
deriving DecidableEq

/-- Connection counter of the particle at index k (0 when out of range). -/
def connAt (ps : List Particle) (k : ℕ) : ℕ :=
  ((ps[k]?).map Particle.connections).getD 0

/-- The x coordinate of the particle at index k (0 when out of range). -/
def posX (ps : List Particle) (k : ℕ) : ℚ :=
  ((ps[k]?).map Particle.x).getD 0

/-- The y coordinate of the particle at index k (0 when out of range). -/
def posY (ps : List Particle) (k : ℕ) : ℚ :=
  ((ps[k]?).map Particle.y).getD 0

/-- Squared distance between the particles at indices i and j. -/
def pairDistSq (ps : List Particle) (i j : ℕ) : ℚ :=
  distSq (posX ps i) (posY ps i) (posX ps j) (posY ps j)

/-- Inner loop of drawConnections for a fixed outer index i: iterate over
the given inner indices js; skip a pair when the INNER particle has used
its budget (the outer budget is not re-checked here, exactly as in the
source); when the distance test passes, record the edge and increment
both counters. -/
def connectInner (cfg : Config) (i : ℕ) (js : List ℕ)
    (ps : List Particle) (es : List Edge) : List Particle × List Edge :=
  match js with
  | [] => (ps, es)
  | j :: rest =>
    match ps[i]?, ps[j]? with
    | some p1, some p2 =>
      if p2.connections ≥ cfg.maxConnections then
        connectInner cfg i rest ps es
      else
        let d2 := distSq p1.x p1.y p2.x p2.y
        if d2 < cfg.connectionDistance ^ 2 then
          let ps1 := ps.set i { p1 with connections := p1.connections + 1 }
          let ps2 := ps1.set j { p2 with connections := p2.connections + 1 }
          connectInner cfg i rest ps2 (es ++ [⟨i, j, d2⟩])
        else
          connectInner cfg i rest ps es
    | _, _ => (ps, es)

/-- Outer loop of drawConnections: for each outer index, skip it entirely
when its connection counter has reached maxConnections (checked once,
before the inner loop), otherwise run the inner loop over all larger
indices. -/
def connectOuter (cfg : Config) (is : List ℕ)
    (ps : List Particle) (es : List Edge) : List Particle × List Edge :=
  match is with
  | [] => (ps, es)
  | i :: rest =>
    match ps[i]? with
    | some p1 =>
      if p1.connections ≥ cfg.maxConnections then
        connectOuter cfg rest ps es
      else
        let r := connectInner cfg i (List.range' (i + 1) (ps.length - (i + 1))) ps es
        connectOuter cfg rest r.1 r.2
    | none => (ps, es)

/-- drawConnections: the double loop over all index pairs i < j, returning
the mutated particle list and the list of drawn edges in drawing order. -/
def drawConnections (cfg : Config) (ps : List Particle) : List Particle × List Edge :=
  connectOuter cfg (List.range ps.length) ps []

/-- Number of particles created by init for a w x h field:
`Math.min(Math.floor(w*h/15000), CONFIG.particleCount)` (an integer; the
creation loop runs zero times when it is negative). -/
def initCount (cfg : Config) (w h : ℚ) : ℤ :=
  min ⌊w * h / 15000⌋ (cfg.particleCount : ℤ)

/-- init: populate the particle list with initCount freshly created
particles; creation draws from Math.random, abstracted here as the
oracle mk giving the particle created at each loop index. -/
def init (cfg : Config) (w h : ℚ) (mk : ℕ → Particle) : List Particle :=
  (List.range (initCount cfg w h).toNat).map mk

/-- Module-level mutable state of the particles script: the motion scale
captured ONCE at load time (`const motionScale = ...getMotionScale()`),
the particle list, the pending frame-callback id (null modelled as none),
the visibility flag, the last frame timestamp, and whether the canvas is
still attached to its container. -/
structure SysState where
  motionScale : ℚ
  particles : List Particle
  animationFrame : Option ℕ
  isVisible : Bool
  lastFrameTime : ℚ
  canvasAttached : Bool
deriving DecidableEq

/-- deltaTime of the animate loop:
`Math.min((currentTime - lastFrameTime) / 16.67, 2)`. -/
def deltaTime (currentTime lastFrameTime : ℚ) : ℚ :=
  min ((currentTime - lastFrameTime) / (1667 / 100)) 2

/-- animate(currentTime): bail out when not visible; otherwise update every
particle with the captured motion scale and the computed deltaTime, run
the connection pass, and schedule the next frame (freshId is the id
returned by requestAnimationFrame). -/
def animate (s : SysState) (currentTime : ℚ) (freshId : ℕ) : SysState :=
  if s.isVisible = false then s
  else
    let dt := deltaTime currentTime s.lastFrameTime
    let updated := s.particles.map (fun p => p.update s.motionScale dt)
    let r := drawConnections CONFIG updated
    { s with
      lastFrameTime := currentTime
      particles := r.1
      animationFrame := some freshId }

/-- start(): a no-op while a frame callback is pending; otherwise set the
visibility flag, reset lastFrameTime to now, and schedule a frame. -/
def start (s : SysState) (now : ℚ) (freshId : ℕ) : SysState :=
  if s.animationFrame.isSome then s
  else
    { s with
      isVisible := true
      lastFrameTime := now
      animationFrame := some freshId }

/-- stop(): cancel the pending frame callback when there is one, and clear
the visibility flag. -/
def stop (s : SysState) : SysState :=
  let s1 := if s.animationFrame.isSome then { s with animationFrame := none } else s
  { s1 with isVisible := false }

/-- destroy(): stop, detach the canvas, and clear the particle list.
The source keeps no destroyed flag. -/
def destroy (s : SysState) : SysState :=
  let s1 := stop s
  { s1 with canvasAttached := false, particles := [] }

/-- A concrete particle on a 1000 x 1000 canvas, used as input in the
concrete scenarios below. -/
def testParticle (px py sx sy : ℚ) : Particle :=
  { canvasWidth := 1000
    canvasHeight := 1000
    x := px
    y := py
    size := 1
    speedX := sx
    speedY := sy
    opacity := 1 / 2
    connections := 0 }

/-- A concrete running module state: motion scale captured as 1 at load,
one particle at (10, 10) moving right, a pending frame callback. -/
def sampleState : SysState :=
  { motionScale := 1
    particles := [testParticle 10 10 1 0]
    animationFrame := some 1
    isVisible := true
    lastFrameTime := 0
    canvasAttached := true }

/-- The configuration of the deterministic-edge-set scenario:
CONFIG with maxConnections lowered to 1. -/
def cfgMax1 : Config :=
  { CONFIG with maxConnections := 1 }

/-- Five coincident particles: every pair is at distance 0. -/
def fiveCluster : List Particle :=
  List.replicate 5 (testParticle 0 0 0 0)

/-- Three collinear particles at x = 0, 10, 5: the third is closer to the
first than the second is. -/
def threeRow : List Particle :=
  [testParticle 0 0 0 0, testParticle 10 0 0 0, testParticle 5 0 0 0]

/-- Projection of a particle to its position, used to state that the
connection pass moves no particle. -/
def posPair (p : Particle) : ℚ × ℚ :=
  (p.x, p.y)

/-! Helper lemmas shared by the claim theorems. -/

/-- The embedded squared-distance comparison agrees with the comparison
`Math.sqrt d2 < m` of the source whenever the threshold m is positive. -/
lemma sqrt_lt_iff_lt_sq (d2 m : ℝ) (hm : 0 < m) :
    Real.sqrt d2 < m ↔ d2 < m ^ 2 :=
  Real.sqrt_lt' hm

/-- Wrap-around always lands in the closed interval [0, bound]. -/
lemma wrapCoord_mem (bound v : ℚ) (hb : 0 ≤ bound) :
    0 ≤ wrapCoord bound v ∧ wrapCoord bound v ≤ bound := by
  rw [wrapCoord]
  by_cases h1 : v > bound
  · simp only [h1, if_true]
    constructor <;> simp_all
  · simp only [h1, if_false]
    by_cases h2 : v < 0
    · simp only [h2, if_true]
      exact ⟨hb, le_refl _⟩
    · simp only [h2, if_false]
      constructor <;> linarith

/-- Wrap-around does not move a value already inside [0, bound]. -/
lemma wrapCoord_id (bound v : ℚ) (h0 : 0 ≤ v) (hb : v ≤ bound) :
    wrapCoord bound v = v := by
  rw [wrapCoord]
  simp only [show ¬ v > bound from not_lt.mpr hb, if_false]
  simp only [show ¬ v < 0 from not_lt.mpr h0, if_false]

/-- A zero motion scale leaves the raw displacement at the old position. -/
lemma displaced_zero (p : Particle) (dt : ℚ) :
    p.displaced 0 dt = (p.x, p.y) := by
  unfold Particle.displaced
  ring_nf

/-- Overwriting a slot with a particle at the same position changes no
position read. -/
lemma getElem?_set_posPair (ps : List Particle) (n k : ℕ) (p q : Particle)
    (hn : ps[n]? = some p) (hpq : posPair q = posPair p) :
    ((ps.set n q)[k]?).map posPair = (ps[k]?).map posPair := by
  by_cases hk : n = k
  · subst hk
    have hlen : n < ps.length := (List.getElem?_eq_some.mp hn).1
    rw [List.getElem?_set_self hlen, hn]
    simp [hpq]
  · rw [List.getElem?_set_ne hk]

/-- The inner connection loop moves no particle: every position read is
unchanged (the outer index never occurs among the inner indices in the
source, where they are all larger). -/
lemma connectInner_posPair (cfg : Config) (i : ℕ) (js : List ℕ)
    (ps : List Particle) (es : List Edge) (k : ℕ) (hnj : i ∉ js) :
    ((connectInner cfg i js ps es).1[k]?).map posPair = (ps[k]?).map posPair := by
  induction js generalizing ps es with
  | nil => rw [connectInner]
  | cons j rest ih =>
    have hij : i ≠ j := fun h => hnj (by rw [h]; exact List.mem_cons_self j rest)
    have hnr : i ∉ rest := fun h => hnj (List.mem_cons_of_mem j h)
    rw [connectInner]
    cases hpi : ps[i]? with
    | none => rfl
    | some p1 =>
      cases hpj : ps[j]? with
      | none => rfl
      | some p2 =>
        by_cases hc : p2.connections ≥ cfg.maxConnections
        · simp only [hc, if_true]
          exact ih ps es hnr
        · simp only [hc, if_false]
          by_cases hd : distSq p1.x p1.y p2.x p2.y < cfg.connectionDistance ^ 2
          · simp only [hd, if_true]
            rw [ih _ _ hnr]
            have hj2 : (ps.set i { p1 with connections := p1.connections + 1 })[j]? =
                some p2 := by
              rw [List.getElem?_set_ne hij]
              exact hpj
            rw [getElem?_set_posPair _ j k p2
                { p2 with connections := p2.connections + 1 } hj2 rfl,
              getElem?_set_posPair _ i k p1
                { p1 with connections := p1.connections + 1 } hpi rfl]
          · simp only [hd, if_false]
            exact ih ps es hnr

/-- The outer connection loop moves no particle. -/
lemma connectOuter_posPair (cfg : Config) (is : List ℕ)
    (ps : List Particle) (es : List Edge) (k : ℕ) :
    ((connectOuter cfg is ps es).1[k]?).map posPair = (ps[k]?).map posPair := by
  induction is generalizing ps es with
  | nil => rw [connectOuter]
  | cons i rest ih =>
    rw [connectOuter]
    cases hpi : ps[i]? with
    | none => rfl
    | some p1 =>
      by_cases hc : p1.connections ≥ cfg.maxConnections
      · simp only [hc, if_true]
        exact ih ps es
      · simp only [hc, if_false]
        rw [ih]
        apply connectInner_posPair cfg i _ ps es k
        intro hmem
        have hge := (List.mem_range'_1.mp hmem).1
        omega

/-- The whole connection pass moves no particle. -/
lemma drawConnections_posPair (cfg : Config) (ps : List Particle) :
    (drawConnections cfg ps).1.map posPair = ps.map posPair := by
  apply List.ext_getElem?
  intro n
  rw [List.getElem?_map, List.getElem?_map]
  exact connectOuter_posPair cfg _ ps [] n

/-- The inner loop preserves the length of the particle list. -/
lemma connectInner_length (cfg : Config) (i : ℕ) (js : List ℕ)
    (ps : List Particle) (es : List Edge) :
    (connectInner cfg i js ps es).1.length = ps.length := by
  induction js generalizing ps es with
  | nil => rw [connectInner]
  | cons j rest ih =>
    rw [connectInner]
    cases hpi : ps[i]? with
    | none => rfl
    | some p1 =>
      cases hpj : ps[j]? with
      | none => rfl
      | some p2 =>
        by_cases hc : p2.connections ≥ cfg.maxConnections
        · simp only [hc, if_true]
          exact ih ps es
        · simp only [hc, if_false]
          by_cases hd : distSq p1.x p1.y p2.x p2.y < cfg.connectionDistance ^ 2
          · simp only [hd, if_true]
            rw [ih]
            simp
          · simp only [hd, if_false]
            exact ih ps es

/-- connAt is unchanged by a write to a different slot. -/
lemma connAt_set_ne (ps : List Particle) (n k : ℕ) (q : Particle) (h : n ≠ k) :
    connAt (ps.set n q) k = connAt ps k := by
  unfold connAt
  rw [List.getElem?_set_ne h]

/-- connAt at the written slot is the connection counter written. -/
lemma connAt_set_self (ps : List Particle) (n : ℕ) (q : Particle) (h : n < ps.length) :
    connAt (ps.set n q) n = q.connections := by
  unfold connAt
  rw [List.getElem?_set_self h]
  rfl

/-- Every increment of an INNER particle is guarded by its budget check,
so a counter of any slot other than the outer index stays at or below
maxConnections throughout the inner loop. -/
lemma connectInner_connAt_le (cfg : Config) (i : ℕ) (js : List ℕ)
    (ps : List Particle) (es : List Edge) (k : ℕ) (hk : k ≠ i)
    (h : connAt ps k ≤ cfg.maxConnections) :
    connAt (connectInner cfg i js ps es).1 k ≤ cfg.maxConnections := by
  induction js generalizing ps es with
  | nil => rw [connectInner]; exact h
  | cons j rest ih =>
    rw [connectInner]
    cases hpi : ps[i]? with
    | none => exact h
    | some p1 =>
      cases hpj : ps[j]? with
      | none => exact h
      | some p2 =>
        by_cases hc : p2.connections ≥ cfg.maxConnections
        · simp only [hc, if_true]
          exact ih ps es h
        · simp only [hc, if_false]
          by_cases hd : distSq p1.x p1.y p2.x p2.y < cfg.connectionDistance ^ 2
          · simp only [hd, if_true]
            apply ih
            by_cases hkj : j = k
            · subst hkj
              have hjlen : j < (ps.set i { p1 with connections := p1.connections + 1 }).length := by
                rw [List.length_set]
                exact (List.getElem?_eq_some.mp hpj).1
              rw [connAt_set_self _ _ _ hjlen]
              show p2.connections + 1 ≤ cfg.maxConnections
              have hp2lt : p2.connections < cfg.maxConnections := Nat.lt_of_not_le hc
              omega
            · rw [connAt_set_ne _ _ _ _ hkj, connAt_set_ne _ _ _ _ (Ne.symm hk)]
              exact h
          · simp only [hd, if_false]
            exact ih ps es h

/-- The counter of the OUTER particle grows by at most one per inner
index: it is never re-checked, only incremented. -/
lemma connectInner_connAt_i (cfg : Config) (i : ℕ) (js : List ℕ)
    (ps : List Particle) (es : List Edge) (hnj : i ∉ js) :
    connAt (connectInner cfg i js ps es).1 i ≤ connAt ps i + js.length := by
  induction js generalizing ps es with
  | nil =>
    rw [connectInner]
    exact Nat.le_add_right _ _
  | cons j rest ih =>
    have hij : i ≠ j := fun h => hnj (by rw [h]; exact List.mem_cons_self j rest)
    have hnr : i ∉ rest := fun h => hnj (List.mem_cons_of_mem j h)
    rw [connectInner]
    cases hpi : ps[i]? with
    | none => exact Nat.le_add_right _ _
    | some p1 =>
      cases hpj : ps[j]? with
      | none => exact Nat.le_add_right _ _
      | some p2 =>
        by_cases hc : p2.connections ≥ cfg.maxConnections
        · simp only [hc, if_true]
          have hrec := ih ps es hnr
          simp only [List.length_cons]
          omega
        · simp only [hc, if_false]
          by_cases hd : distSq p1.x p1.y p2.x p2.y < cfg.connectionDistance ^ 2
          · simp only [hd, if_true]
            have hset : connAt
                ((ps.set i { p1 with connections := p1.connections + 1 }).set j
                  { p2 with connections := p2.connections + 1 }) i = connAt ps i + 1 := by
              rw [connAt_set_ne _ _ _ _ (Ne.symm hij),
                connAt_set_self _ _ _ (List.getElem?_eq_some.mp hpi).1]
              unfold connAt
              rw [hpi]
              rfl
            have hrec := ih ((ps.set i { p1 with connections := p1.connections + 1 }).set j
                { p2 with connections := p2.connections + 1 })
              (es ++ [⟨i, j, distSq p1.x p1.y p2.x p2.y⟩]) hnr
            rw [hset] at hrec
            simp only [List.length_cons]
            omega
          · simp only [hd, if_false]
            have hrec := ih ps es hnr
            simp only [List.length_cons]
            omega

/-- Slots that are neither the outer index nor among the inner indices
are untouched by the inner loop. -/
lemma connectInner_connAt_notin (cfg : Config) (i : ℕ) (js : List ℕ)
    (ps : List Particle) (es : List Edge) (k : ℕ) (hk : k ≠ i) (hkj : k ∉ js) :
    connAt (connectInner cfg i js ps es).1 k = connAt ps k := by
  induction js generalizing ps es with
  | nil => rw [connectInner]
  | cons j rest ih =>
    have hjk : j ≠ k := fun h => hkj (by rw [← h]; exact List.mem_cons_self j rest)
    have hkr : k ∉ rest := fun h => hkj (List.mem_cons_of_mem j h)
    rw [connectInner]
    cases hpi : ps[i]? with
    | none => rfl
    | some p1 =>
      cases hpj : ps[j]? with
      | none => rfl
      | some p2 =>
        by_cases hc : p2.connections ≥ cfg.maxConnections
        · simp only [hc, if_true]
          exact ih ps es hkr
        · simp only [hc, if_false]
          by_cases hd : distSq p1.x p1.y p2.x p2.y < cfg.connectionDistance ^ 2
          · simp only [hd, if_true]
            rw [ih _ _ hkr, connAt_set_ne _ _ _ _ hjk, connAt_set_ne _ _ _ _ (Ne.symm hk)]
          · simp only [hd, if_false]
            exact ih ps es hkr

/-- Invariant of the outer loop over the remaining indices
range' i0 n covering the rest of the list: indices not yet used as outer
index have counters at most maxConnections, all counters are at most
maxConnections + N - 2, and both facts survive the pass. -/
lemma connectOuter_conn_bound (cfg : Config) (N : ℕ) (hN : 2 ≤ N) :
    ∀ (n i0 : ℕ) (ps : List Particle) (es : List Edge),
      ps.length = N → i0 + n = N →
      (∀ k, connAt ps k ≤ cfg.maxConnections + N - 2) →
      (∀ k, i0 ≤ k → connAt ps k ≤ cfg.maxConnections) →
      ∀ k, connAt (connectOuter cfg (List.range' i0 n) ps es).1 k ≤
        cfg.maxConnections + N - 2 := by
  intro n
  induction n with
  | zero =>
    intro i0 ps es hlen hiN hall hge k
    rw [show List.range' i0 0 = [] from rfl, connectOuter]
    exact hall k
  | succ n ih =>
    intro i0 ps es hlen hiN hall hge k
    rw [List.range'_succ, connectOuter]
    have hi0 : i0 < ps.length := by omega
    cases hpi : ps[i0]? with
    | none =>
      rw [List.getElem?_eq_none_iff] at hpi
      omega
    | some p1 =>
      by_cases hc : p1.connections ≥ cfg.maxConnections
      · simp only [hc, if_true]
        exact ih (i0 + 1) ps es hlen (by omega) hall (fun k2 hk2 => hge k2 (by omega)) k
      · simp only [hc, if_false]
        have hi0js : i0 ∉ List.range' (i0 + 1) (ps.length - (i0 + 1)) := by
          intro hmem
          have hge1 := (List.mem_range'_1.mp hmem).1
          omega
        have hlen2 :
            (connectInner cfg i0 (List.range' (i0 + 1) (ps.length - (i0 + 1))) ps es).1.length
              = N := by
          rw [connectInner_length, hlen]
        have hconn0 : connAt ps i0 = p1.connections := by
          unfold connAt
          rw [hpi]
          rfl
        have hlt : p1.connections < cfg.maxConnections := Nat.lt_of_not_le hc
        have hall2 : ∀ k2,
            connAt (connectInner cfg i0 (List.range' (i0 + 1) (ps.length - (i0 + 1))) ps es).1 k2
              ≤ cfg.maxConnections + N - 2 := by
          intro k2
          by_cases hk2 : k2 = i0
          · subst hk2
            have hgrow := connectInner_connAt_i cfg k2
              (List.range' (k2 + 1) (ps.length - (k2 + 1))) ps es hi0js
            have hjslen : (List.range' (k2 + 1) (ps.length - (k2 + 1))).length =
                ps.length - (k2 + 1) := by
              simp
            rw [hjslen, hconn0] at hgrow
            omega
          · by_cases hik : i0 ≤ k2
            · have hle := connectInner_connAt_le cfg i0
                (List.range' (i0 + 1) (ps.length - (i0 + 1))) ps es k2 hk2 (hge k2 hik)
              omega
            · have hnotin : k2 ∉ List.range' (i0 + 1) (ps.length - (i0 + 1)) := by
                intro hmem
                have hge1 := (List.mem_range'_1.mp hmem).1
                omega
              rw [connectInner_connAt_notin cfg i0
                (List.range' (i0 + 1) (ps.length - (i0 + 1))) ps es k2 hk2 hnotin]
              exact hall k2
        have hge2 : ∀ k2, i0 + 1 ≤ k2 →
            connAt (connectInner cfg i0 (List.range' (i0 + 1) (ps.length - (i0 + 1))) ps es).1 k2
              ≤ cfg.maxConnections := by
          intro k2 hk2
          exact connectInner_connAt_le cfg i0
            (List.range' (i0 + 1) (ps.length - (i0 + 1))) ps es k2 (by omega) (hge k2 (by omega))
        exact ih (i0 + 1) _ _ hlen2 (by omega) hall2 hge2 k

/-- posX only depends on the positions, so it is stable under any
transformation that preserves every posPair read. -/
lemma posX_congr (ps qs : List Particle)
    (h : ∀ k2 : ℕ, (qs[k2]?).map posPair = (ps[k2]?).map posPair) (k : ℕ) :
    posX qs k = posX ps k := by
  unfold posX
  have h2 := congrArg (Option.map Prod.fst) (h k)
  rw [Option.map_map, Option.map_map] at h2
  rw [show (Prod.fst ∘ posPair) = Particle.x from rfl] at h2
  rw [h2]

/-- posY analogue of posX_congr. -/
lemma posY_congr (ps qs : List Particle)
    (h : ∀ k2 : ℕ, (qs[k2]?).map posPair = (ps[k2]?).map posPair) (k : ℕ) :
    posY qs k = posY ps k := by
  unfold posY
  have h2 := congrArg (Option.map Prod.snd) (h k)
  rw [Option.map_map, Option.map_map] at h2
  rw [show (Prod.snd ∘ posPair) = Particle.y from rfl] at h2
  rw [h2]

/-- With maxConnections = 1 and untouched inner counters, the inner loop
for outer index i draws an edge to EVERY inner index whose particle is
within connectionDistance of the outer particle: by the time an inner
index is reached its counter is still 0, so its budget check passes, and
the outer counter is never re-checked. -/
lemma connectInner_m1_edges (cfg : Config) (hm : cfg.maxConnections = 1) (i : ℕ) :
    ∀ (js : List ℕ) (ps : List Particle) (es : List Edge),
      js.Nodup → i ∉ js →
      (∀ j ∈ js, connAt ps j = 0) →
      (∀ j ∈ js, j < ps.length) →
      i < ps.length →
      (connectInner cfg i js ps es).2 =
        es ++ (js.filter (fun j =>
            decide (pairDistSq ps i j < cfg.connectionDistance ^ 2))).map
          (fun j => ⟨i, j, pairDistSq ps i j⟩) := by
  intro js
  induction js with
  | nil =>
    intro ps es hnd hni h0 hlt hi
    rw [connectInner]
    simp
  | cons j rest ih =>
    intro ps es hnd hni h0 hlt hi
    have hij : i ≠ j := fun h => hni (by rw [h]; exact List.mem_cons_self j rest)
    have hnir : i ∉ rest := fun h => hni (List.mem_cons_of_mem j h)
    have hjr : j ∉ rest := (List.nodup_cons.mp hnd).1
    have hndr : rest.Nodup := (List.nodup_cons.mp hnd).2
    have hjlen : j < ps.length := hlt j (List.mem_cons_self j rest)
    rw [connectInner]
    cases hpi : ps[i]? with
    | none =>
      rw [List.getElem?_eq_none_iff] at hpi
      omega
    | some p1 =>
      cases hpj : ps[j]? with
      | none =>
        rw [List.getElem?_eq_none_iff] at hpj
        omega
      | some p2 =>
        have hp20 : p2.connections = 0 := by
          have hc0 := h0 j (List.mem_cons_self j rest)
          unfold connAt at hc0
          rw [hpj] at hc0
          simpa using hc0
        have hc : ¬ p2.connections ≥ cfg.maxConnections := by
          rw [hm, hp20]
          omega
        simp only [hc, if_false]
        have hpd : pairDistSq ps i j = distSq p1.x p1.y p2.x p2.y := by
          unfold pairDistSq posX posY
          rw [hpi, hpj]
          rfl
        by_cases hd : distSq p1.x p1.y p2.x p2.y < cfg.connectionDistance ^ 2
        · simp only [hd, if_true]
          have hj2 : (ps.set i { p1 with connections := p1.connections + 1 })[j]? =
              some p2 := by
            rw [List.getElem?_set_ne hij]
            exact hpj
          have hpp : ∀ k2 : ℕ,
              (((ps.set i { p1 with connections := p1.connections + 1 }).set j
                { p2 with connections := p2.connections + 1 })[k2]?).map posPair =
              (ps[k2]?).map posPair := by
            intro k2
            rw [getElem?_set_posPair _ j k2 p2
                { p2 with connections := p2.connections + 1 } hj2 rfl,
              getElem?_set_posPair _ i k2 p1
                { p1 with connections := p1.connections + 1 } hpi rfl]
          have hpd2 : ∀ j2, pairDistSq
              ((ps.set i { p1 with connections := p1.connections + 1 }).set j
                { p2 with connections := p2.connections + 1 }) i j2 =
              pairDistSq ps i j2 := by
            intro j2
            unfold pairDistSq
            rw [posX_congr ps _ hpp, posY_congr ps _ hpp,
              posX_congr ps _ hpp, posY_congr ps _ hpp]
          have hlen2 : ((ps.set i { p1 with connections := p1.connections + 1 }).set j
              { p2 with connections := p2.connections + 1 }).length = ps.length := by
            simp
          have hrec := ih ((ps.set i { p1 with connections := p1.connections + 1 }).set j
              { p2 with connections := p2.connections + 1 })
            (es ++ [⟨i, j, distSq p1.x p1.y p2.x p2.y⟩]) hndr hnir
            (by
              intro j2 hj2m
              have hjne : j ≠ j2 := fun h => hjr (h ▸ hj2m)
              have hine : i ≠ j2 := fun h => hnir (h ▸ hj2m)
              rw [connAt_set_ne _ _ _ _ hjne, connAt_set_ne _ _ _ _ hine]
              exact h0 j2 (List.mem_cons_of_mem j hj2m))
            (by
              intro j2 hj2m
              rw [hlen2]
              exact hlt j2 (List.mem_cons_of_mem j hj2m))
            (by
              rw [hlen2]
              exact hi)
          rw [hrec]
          rw [List.filter_congr (fun a _ => by rw [hpd2 a]),
            List.map_congr_left (fun a _ => by rw [hpd2 a])]
          rw [List.filter_cons_of_pos (by simp [hpd, hd])]
          simp [hpd]
        · simp only [hd, if_false]
          rw [ih ps es hndr hnir
            (fun j2 hj2m => h0 j2 (List.mem_cons_of_mem j hj2m))
            (fun j2 hj2m => hlt j2 (List.mem_cons_of_mem j hj2m)) hi]
          rw [List.filter_cons_of_neg (by simp [hpd, hd])]

/-- Every edge produced by the inner loop carries the outer index. -/
lemma connectInner_edges_shape (cfg : Config) (i : ℕ) (js : List ℕ) :
    ∀ (ps : List Particle) (es : List Edge),
      ∃ tail, (connectInner cfg i js ps es).2 = es ++ tail ∧ ∀ e ∈ tail, e.i = i := by
  induction js with
  | nil =>
    intro ps es
    exact ⟨[], by rw [connectInner]; simp, by simp⟩
  | cons j rest ih =>
    intro ps es
    rw [connectInner]
    cases hpi : ps[i]? with
    | none => exact ⟨[], by simp, by simp⟩
    | some p1 =>
      cases hpj : ps[j]? with
      | none => exact ⟨[], by simp, by simp⟩
      | some p2 =>
        by_cases hc : p2.connections ≥ cfg.maxConnections
        · simp only [hc, if_true]
          exact ih ps es
        · simp only [hc, if_false]
          by_cases hd : distSq p1.x p1.y p2.x p2.y < cfg.connectionDistance ^ 2
          · simp only [hd, if_true]
            obtain ⟨tail, heq, hall⟩ := ih
              ((ps.set i { p1 with connections := p1.connections + 1 }).set j
                { p2 with connections := p2.connections + 1 })
              (es ++ [⟨i, j, distSq p1.x p1.y p2.x p2.y⟩])
            refine ⟨⟨i, j, distSq p1.x p1.y p2.x p2.y⟩ :: tail, by rw [heq]; simp, ?_⟩
            intro e he
            rcases List.mem_cons.mp he with he1 | he1
            · rw [he1]
            · exact hall e he1
          · simp only [hd, if_false]
            exact ih ps es

/-- Every edge produced by the outer loop carries an outer index that
occurs in the index list. -/
lemma connectOuter_edges_shape (cfg : Config) (is : List ℕ) :
    ∀ (ps : List Particle) (es : List Edge),
      ∃ tail, (connectOuter cfg is ps es).2 = es ++ tail ∧ ∀ e ∈ tail, e.i ∈ is := by
  induction is with
  | nil =>
    intro ps es
    exact ⟨[], by rw [connectOuter]; simp, by simp⟩
  | cons i rest ih =>
    intro ps es
    rw [connectOuter]
    cases hpi : ps[i]? with
    | none => exact ⟨[], by simp, by simp⟩
    | some p1 =>
      by_cases hc : p1.connections ≥ cfg.maxConnections
      · simp only [hc, if_true]
        obtain ⟨tail, heq, hall⟩ := ih ps es
        exact ⟨tail, heq, fun e he => List.mem_cons_of_mem i (hall e he)⟩
      · simp only [hc, if_false]
        obtain ⟨t1, heq1, hall1⟩ := connectInner_edges_shape cfg i
          (List.range' (i + 1) (ps.length - (i + 1))) ps es
        obtain ⟨t2, heq2, hall2⟩ := ih
          (connectInner cfg i (List.range' (i + 1) (ps.length - (i + 1))) ps es).1
          (connectInner cfg i (List.range' (i + 1) (ps.length - (i + 1))) ps es).2
        refine ⟨t1 ++ t2, by rw [heq2, heq1]; simp, ?_⟩
        intro e he
        rcases List.mem_append.mp he with he1 | he1
        · rw [← hall1 e he1]
          exact List.mem_cons_self e.i rest
        · exact List.mem_cons_of_mem i (hall2 e he1)

/-- C5, counterexample: a particle at x = 0 with velocity (-1, 0), motion
scale 1 and deltaTime 1 is displaced to x = -1, and the wrap-around sets
x to the canvas width itself, so the claimed strict bound x < width
fails. -/
theorem c5_counterexample :
    ((testParticle 0 0 (-1) 0).update 1 1).x = (testParticle 0 0 (-1) 0).canvasWidth ∧
    ¬ ((testParticle 0 0 (-1) 0).update 1 1).x < (testParticle 0 0 (-1) 0).canvasWidth := by
  norm_num [testParticle, Particle.update, Particle.displaced, wrapCoord]

/-- C5, amended: after update the position lies in the CLOSED box
[0, width] x [0, height]; the wrap-around of the source maps a negative
coordinate to the bound itself, so the strict upper bound of the claim
must be weakened to a non-strict one. -/
theorem c5_amended_position_bound (p : Particle) (ms dt : ℚ)
    (hw : 0 ≤ p.canvasWidth) (hh : 0 ≤ p.canvasHeight) :
    0 ≤ (p.update ms dt).x ∧ (p.update ms dt).x ≤ p.canvasWidth ∧
    0 ≤ (p.update ms dt).y ∧ (p.update ms dt).y ≤ p.canvasHeight := by
  have hx := wrapCoord_mem p.canvasWidth (p.displaced ms dt).1 hw
  have hy := wrapCoord_mem p.canvasHeight (p.displaced ms dt).2 hh
  exact ⟨hx.1, hx.2, hy.1, hy.2⟩

/-- Witness for C5 amended at a concrete particle. -/
theorem c5_amended_witness :
    (0 : ℚ) ≤ (testParticle 0 0 (-1) 0).canvasWidth ∧
    (0 : ℚ) ≤ (testParticle 0 0 (-1) 0).canvasHeight ∧
    (0 ≤ ((testParticle 0 0 (-1) 0).update 1 1).x ∧
      ((testParticle 0 0 (-1) 0).update 1 1).x ≤ (testParticle 0 0 (-1) 0).canvasWidth ∧
      0 ≤ ((testParticle 0 0 (-1) 0).update 1 1).y ∧
      ((testParticle 0 0 (-1) 0).update 1 1).y ≤ (testParticle 0 0 (-1) 0).canvasHeight) :=
  ⟨by norm_num [testParticle], by norm_num [testParticle],
    c5_amended_position_bound (testParticle 0 0 (-1) 0) 1 1
      (by norm_num [testParticle]) (by norm_num [testParticle])⟩

/-- C6, confirmed: with motion scale 0 an update leaves the position of
any in-bounds particle exactly unchanged, for every velocity and every
deltaTime (the in-bounds hypothesis is the position invariant that every
particle of the running system satisfies). -/
theorem c6_zero_motion_freeze (p : Particle) (dt : ℚ)
    (hx0 : 0 ≤ p.x) (hxw : p.x ≤ p.canvasWidth)
    (hy0 : 0 ≤ p.y) (hyh : p.y ≤ p.canvasHeight) :
    (p.update 0 dt).x = p.x ∧ (p.update 0 dt).y = p.y := by
  unfold Particle.update
  rw [displaced_zero]
  exact ⟨wrapCoord_id _ _ hx0 hxw, wrapCoord_id _ _ hy0 hyh⟩

/-- Witness for C6 at a concrete particle with nonzero velocity. -/
theorem c6_witness :
    (0 : ℚ) ≤ (testParticle 10 10 1 (-1)).x ∧
    (testParticle 10 10 1 (-1)).x ≤ (testParticle 10 10 1 (-1)).canvasWidth ∧
    (0 : ℚ) ≤ (testParticle 10 10 1 (-1)).y ∧
    (testParticle 10 10 1 (-1)).y ≤ (testParticle 10 10 1 (-1)).canvasHeight ∧
    (((testParticle 10 10 1 (-1)).update 0 5).x = (testParticle 10 10 1 (-1)).x ∧
      ((testParticle 10 10 1 (-1)).update 0 5).y = (testParticle 10 10 1 (-1)).y) :=
  ⟨by norm_num [testParticle], by norm_num [testParticle],
    by norm_num [testParticle], by norm_num [testParticle],
    c6_zero_motion_freeze (testParticle 10 10 1 (-1)) 5
      (by norm_num [testParticle]) (by norm_num [testParticle])
      (by norm_num [testParticle]) (by norm_num [testParticle])⟩

/-- C7, confirmed: for nonnegative field dimensions, init creates exactly
min(floor(width * height / 15000), configuredMax) particles, whatever the
random draws produce. -/
theorem c7_density_scaling (cfg : Config) (w h : ℚ) (mk : ℕ → Particle)
    (hw : 0 ≤ w) (hh : 0 ≤ h) :
    ((init cfg w h mk).length : ℤ) = min ⌊w * h / 15000⌋ (cfg.particleCount : ℤ) := by
  have hfloor : (0 : ℤ) ≤ ⌊w * h / 15000⌋ := by
    apply Int.floor_nonneg.mpr
    positivity
  have hmin : (0 : ℤ) ≤ min ⌊w * h / 15000⌋ (cfg.particleCount : ℤ) :=
    le_min hfloor (by positivity)
  simp only [init, List.length_map, List.length_range, initCount]
  exact Int.toNat_of_nonneg hmin

/-- Witness for C7 on a 300 x 100 field: area 30000 gives
min(2, 50) = 2 particles. -/
theorem c7_witness :
    (0 : ℚ) ≤ 300 ∧ (0 : ℚ) ≤ 100 ∧
    ((init CONFIG 300 100 (fun _ => testParticle 0 0 0 0)).length : ℤ) =
      min ⌊(300 : ℚ) * 100 / 15000⌋ (CONFIG.particleCount : ℤ) :=
  ⟨by norm_num, by norm_num,
    c7_density_scaling CONFIG 300 100 (fun _ => testParticle 0 0 0 0)
      (by norm_num) (by norm_num)⟩

/-- C10, confirmed: deltaTime is capped above by 2 and has no lower
bound; on a tick with currentTime < lastFrameTime it is negative, and the
raw displacement of any particle with nonzero velocity then points
opposite to the velocity (negative dot product) whenever the motion scale
is positive. -/
theorem c10_deltaTime_unbounded_below (cur last ms : ℚ) (p : Particle)
    (hcl : cur < last) (hms : 0 < ms)
    (hv : p.speedX ^ 2 + p.speedY ^ 2 ≠ 0) :
    (∀ a b : ℚ, deltaTime a b ≤ 2) ∧
    (∀ B : ℚ, ∃ a b : ℚ, deltaTime a b < B) ∧
    deltaTime cur last < 0 ∧
    ((p.displaced ms (deltaTime cur last)).1 - p.x) * p.speedX +
      ((p.displaced ms (deltaTime cur last)).2 - p.y) * p.speedY < 0 := by
  have hcap : ∀ a b : ℚ, deltaTime a b ≤ 2 := by
    intro a b
    exact min_le_right _ _
  have hneg : deltaTime cur last < 0 := by
    have hq : (cur - last) / (1667 / 100) < 0 := by
      apply div_neg_of_neg_of_pos (by linarith) (by norm_num)
    exact lt_of_le_of_lt (min_le_left _ _) hq
  refine ⟨hcap, ?_, hneg, ?_⟩
  · intro B
    refine ⟨(min B 0 - 1) * (1667 / 100), 0, ?_⟩
    have h1 : ((min B 0 - 1) * (1667 / 100) - 0) / (1667 / 100) = min B 0 - 1 := by
      field_simp
    have h2 : min B 0 - 1 ≤ 2 := by
      have := min_le_right B 0
      linarith
    have h3 : min B 0 - 1 < B := by
      have := min_le_left B 0
      linarith
    unfold deltaTime
    rw [h1, min_eq_left h2]
    exact h3
  · have hsq : 0 < p.speedX ^ 2 + p.speedY ^ 2 :=
      lt_of_le_of_ne (by positivity) (Ne.symm hv)
    have hmd : ms * deltaTime cur last < 0 := mul_neg_of_pos_of_neg hms hneg
    have hrw : ((p.displaced ms (deltaTime cur last)).1 - p.x) * p.speedX +
        ((p.displaced ms (deltaTime cur last)).2 - p.y) * p.speedY =
        (ms * deltaTime cur last) * (p.speedX ^ 2 + p.speedY ^ 2) := by
      unfold Particle.displaced
      ring
    rw [hrw]
    exact mul_neg_of_neg_of_pos hmd hsq

/-- Witness for C10 at currentTime 0, lastFrameTime 100, motion scale 1
and a particle with velocity (1, 0). -/
theorem c10_witness :
    (0 : ℚ) < 100 ∧ (0 : ℚ) < 1 ∧
    ((testParticle 10 10 1 0).speedX ^ 2 + (testParticle 10 10 1 0).speedY ^ 2 ≠ 0) ∧
    ((∀ a b : ℚ, deltaTime a b ≤ 2) ∧
      (∀ B : ℚ, ∃ a b : ℚ, deltaTime a b < B) ∧
      deltaTime 0 100 < 0 ∧
      (((testParticle 10 10 1 0).displaced 1 (deltaTime 0 100)).1 -
          (testParticle 10 10 1 0).x) * (testParticle 10 10 1 0).speedX +
        (((testParticle 10 10 1 0).displaced 1 (deltaTime 0 100)).2 -
          (testParticle 10 10 1 0).y) * (testParticle 10 10 1 0).speedY < 0) :=
  ⟨by norm_num, by norm_num, by norm_num [testParticle],
    c10_deltaTime_unbounded_below 0 100 1 (testParticle 10 10 1 0)
      (by norm_num) (by norm_num) (by norm_num [testParticle])⟩

/-- C4, counterexample: starting from a concrete running state, destroy()
followed by start() DOES schedule a new frame callback (id 5 here); the
source keeps no destroyed flag, so start is not inert after destroy. -/
theorem c4_counterexample :
    (start (destroy sampleState) 0 5).animationFrame = some 5 ∧
    (start (destroy sampleState) 0 5).animationFrame ≠ none := by
  constructor <;> simp [start, stop, destroy, sampleState]

/-- C4, amended: after destroy(), a subsequent start() schedules a fresh
frame callback again (the loop resumes), but the particle count does
remain 0 because start() does not reinitialize the particle list. -/
theorem c4_amended_start_after_destroy (s : SysState) (now : ℚ) (freshId : ℕ) :
    (start (destroy s) now freshId).animationFrame = some freshId ∧
    (start (destroy s) now freshId).particles.length = 0 := by
  cases h : s.animationFrame <;> simp [start, stop, destroy, h]

/-- C9, confirmed: a second start() while a frame callback is pending
returns the state unchanged (no duplicate callback), and stop() is
idempotent, so a stop() in the stopped state changes nothing. -/
theorem c9_lifecycle_idempotence (s : SysState) (now : ℚ) (freshId k : ℕ)
    (h : s.animationFrame = some k) :
    start s now freshId = s ∧ ∀ t : SysState, stop (stop t) = stop t := by
  constructor
  · simp [start, h]
  · intro t
    cases ht : t.animationFrame <;> simp [stop, ht]

/-- Witness for C9 at the concrete running sample state. -/
theorem c9_witness :
    sampleState.animationFrame = some 1 ∧
    (start sampleState 0 5 = sampleState ∧
      ∀ t : SysState, stop (stop t) = stop t) :=
  ⟨rfl, c9_lifecycle_idempotence sampleState 0 5 1 rfl⟩

/-- C3, counterexample: the motion scale is read ONCE at module load
(here captured as 1 in sampleState); on a later frame where the
MotionSignal has dropped to 1/2, the tick still displaces the particle at
(10, 10) with velocity (1, 0) by 1 * 1 * 1 to x = 11, not by
1 * (1/2) * 1 to x = 10.5 as the claim predicts. -/
theorem c3_counterexample :
    (animate sampleState (1667 / 100) 7).particles.map Particle.x = [11] ∧
    (11 : ℚ) ≠ 10 + 1 * (1 / 2) * 1 := by
  constructor
  · norm_num [animate, sampleState, deltaTime, testParticle, Particle.update,
      Particle.displaced, wrapCoord, drawConnections, connectOuter, connectInner,
      CONFIG, distSq, List.range_succ, List.range', min_def]
  · norm_num

/-- C3, amended: each frame displaces every particle by
velocity * motionScale * deltaTime where motionScale is the value
captured once at module load (stored in the state), not a value queried
that frame; the connection pass moves nothing, so the new positions are
exactly the wrapped raw displacements under the captured scale. -/
theorem c3_amended_captured_scale (s : SysState) (t : ℚ) (freshId : ℕ)
    (hv : s.isVisible = true) :
    (animate s t freshId).particles.map posPair =
      s.particles.map (fun p =>
        (wrapCoord p.canvasWidth (p.displaced s.motionScale (deltaTime t s.lastFrameTime)).1,
         wrapCoord p.canvasHeight (p.displaced s.motionScale (deltaTime t s.lastFrameTime)).2)) := by
  have h1 : (animate s t freshId).particles =
      (drawConnections CONFIG
        (s.particles.map (fun p => p.update s.motionScale (deltaTime t s.lastFrameTime)))).1 := by
    rw [animate]
    simp [hv]
  rw [h1, drawConnections_posPair, List.map_map]
  rfl

/-- Witness for C3 amended at the concrete running sample state. -/
theorem c3_amended_witness :
    sampleState.isVisible = true ∧
    (animate sampleState (1667 / 100) 7).particles.map posPair =
      sampleState.particles.map (fun p =>
        (wrapCoord p.canvasWidth
          (p.displaced sampleState.motionScale (deltaTime (1667 / 100) sampleState.lastFrameTime)).1,
         wrapCoord p.canvasHeight
          (p.displaced sampleState.motionScale (deltaTime (1667 / 100) sampleState.lastFrameTime)).2)) :=
  ⟨rfl, c3_amended_captured_scale sampleState (1667 / 100) 7 rfl⟩

/-- C8, confirmed: on the two-particle field at (0,0) and (50,0) with the
default configuration (connectionDistance 120, maxConnections 3), one
frame of the connection pass draws exactly the single edge between them,
at squared distance 2500, and its stroke alpha
lineAlpha * (1 - sqrt 2500 / 120) equals lineAlpha * (1 - 50/120). -/
theorem c8_two_particle_scenario :
    (drawConnections CONFIG [testParticle 0 0 0 0, testParticle 50 0 0 0]).2 =
      [⟨0, 1, 2500⟩] ∧
    (CONFIG.lineColor.a : ℝ) * (1 - Real.sqrt 2500 / (CONFIG.connectionDistance : ℝ)) =
      (CONFIG.lineColor.a : ℝ) * (1 - 50 / 120) := by
  constructor
  · norm_num [drawConnections, connectOuter, connectInner, CONFIG, testParticle,
      distSq, List.range_succ, List.range']
  · have h50 : Real.sqrt 2500 = 50 := by
      have : (2500 : ℝ) = 50 ^ 2 := by norm_num
      rw [this, Real.sqrt_sq (by norm_num : (0 : ℝ) ≤ 50)]
    rw [h50]
    norm_num [CONFIG]

/-- C1, counterexample: five coincident particles under the default
maxConnections = 3; the outer budget is checked only once before the
inner loop, so particle 0 ends the pass with 4 connections, violating the
claimed cap. -/
theorem c1_counterexample :
    connAt (drawConnections CONFIG fiveCluster).1 0 = 4 ∧
    ¬ connAt (drawConnections CONFIG fiveCluster).1 0 ≤ CONFIG.maxConnections := by
  have h4 : connAt (drawConnections CONFIG fiveCluster).1 0 = 4 := by
    norm_num [drawConnections, connectOuter, connectInner, CONFIG, testParticle,
      distSq, fiveCluster, List.range_succ, List.range', connAt, List.replicate]
  refine ⟨h4, ?_⟩
  rw [h4]
  norm_num [CONFIG]

/-- C2, counterexample: with maxConnections = 1 and particles at
(0,0), (10,0), (5,0), the pass draws the edge (0,1) to the first in-order
neighbor AND the edge (0,2) to the later (closer) neighbor, because the
outer budget of particle 0 is never re-checked inside the inner loop. -/
theorem c2_counterexample :
    (drawConnections cfgMax1 threeRow).2.map (fun e => (e.i, e.j)) = [(0, 1), (0, 2)] ∧
    (0, 2) ∈ (drawConnections cfgMax1 threeRow).2.map (fun e => (e.i, e.j)) := by
  have he : (drawConnections cfgMax1 threeRow).2.map (fun e => (e.i, e.j)) =
      [(0, 1), (0, 2)] := by
    norm_num [drawConnections, connectOuter, connectInner, CONFIG, cfgMax1, testParticle,
      distSq, threeRow, List.range_succ, List.range']
  refine ⟨he, ?_⟩
  rw [he]
  simp

/-- C1, amended: when the pass starts with all counters reset (as every
frame does, update zeroes them) and there are N >= 2 particles, every
counter after the pass is at most maxConnections + N - 2; the cap
maxConnections itself is not an invariant, because the outer budget is
checked only once per outer index (see the counterexample). -/
theorem c1_amended_connection_bound (cfg : Config) (ps : List Particle)
    (h0 : ∀ p ∈ ps, p.connections = 0) (hN : 2 ≤ ps.length) (k : ℕ) :
    connAt (drawConnections cfg ps).1 k ≤ cfg.maxConnections + ps.length - 2 := by
  have hz : ∀ k2, connAt ps k2 = 0 := by
    intro k2
    unfold connAt
    cases hk : ps[k2]? with
    | none => rfl
    | some p =>
      simpa using h0 p (List.getElem?_mem hk)
  rw [drawConnections, List.range_eq_range']
  exact connectOuter_conn_bound cfg ps.length hN ps.length 0 ps [] rfl (by omega)
    (fun k2 => by rw [hz k2]; exact Nat.zero_le _)
    (fun k2 _ => by rw [hz k2]; exact Nat.zero_le _) k

/-- Witness for C1 amended on the five coincident particles. -/
theorem c1_amended_witness :
    (∀ p ∈ fiveCluster, p.connections = 0) ∧ 2 ≤ fiveCluster.length ∧
    connAt (drawConnections CONFIG fiveCluster).1 0 ≤
      CONFIG.maxConnections + fiveCluster.length - 2 :=
  ⟨fun p hp => by
      rw [List.eq_of_mem_replicate
        (show p ∈ List.replicate 5 (testParticle 0 0 0 0) from hp)]
      rfl,
    by norm_num [fiveCluster],
    c1_amended_connection_bound CONFIG fiveCluster
      (fun p hp => by
        rw [List.eq_of_mem_replicate
          (show p ∈ List.replicate 5 (testParticle 0 0 0 0) from hp)]
        rfl)
      (by norm_num [fiveCluster]) 0⟩

/-- C2, amended: with maxConnections = 1 and all counters reset, the
edges whose outer endpoint is particle 0 are EXACTLY the in-iteration-
order list of all neighbors within connectionDistance: the first in-order
in-range neighbor is connected, and so is every later in-range neighbor,
because the outer budget of particle 0 is never re-checked inside the
inner loop. -/
theorem c2_amended_all_inrange_neighbors (cfg : Config) (ps : List Particle)
    (hm : cfg.maxConnections = 1) (h0 : ∀ p ∈ ps, p.connections = 0)
    (hlen : 1 ≤ ps.length) :
    ((drawConnections cfg ps).2.filter (fun e => e.i == 0)).map Edge.j =
      (List.range' 1 (ps.length - 1)).filter
        (fun j => decide (pairDistSq ps 0 j < cfg.connectionDistance ^ 2)) := by
  obtain ⟨n, hn⟩ : ∃ n, ps.length = n + 1 := ⟨ps.length - 1, by omega⟩
  rw [drawConnections, List.range_eq_range', hn]
  simp only [Nat.add_sub_cancel]
  rw [List.range'_succ, connectOuter]
  cases hp0 : ps[0]? with
  | none =>
    rw [List.getElem?_eq_none_iff] at hp0
    omega
  | some p0 =>
    have hp00 : p0.connections = 0 := by
      simpa using h0 p0 (List.getElem?_mem hp0)
    have hc : ¬ p0.connections ≥ cfg.maxConnections := by
      rw [hm, hp00]
      omega
    simp only [hc, if_false]
    have harg : List.range' (0 + 1) (ps.length - (0 + 1)) = List.range' 1 n := by
      rw [hn]
      norm_num
    rw [harg]
    have hz : ∀ j ∈ List.range' 1 n, connAt ps j = 0 := by
      intro j hj
      unfold connAt
      cases hk : ps[j]? with
      | none => rfl
      | some p =>
        simpa using h0 p (List.getElem?_mem hk)
    have hb : ∀ j ∈ List.range' 1 n, j < ps.length := by
      intro j hj
      have hj2 := (List.mem_range'_1.mp hj).2
      omega
    have hnot0 : (0 : ℕ) ∉ List.range' 1 n := by
      intro hmem
      have hge1 := (List.mem_range'_1.mp hmem).1
      omega
    have hnd : (List.range' 1 n).Nodup := by
      apply List.nodup_range'
      exact Nat.one_pos
    have hinner := connectInner_m1_edges cfg hm 0 (List.range' 1 n) ps []
      hnd hnot0 hz hb (by omega)
    obtain ⟨t2, ht2eq, ht2i⟩ := connectOuter_edges_shape cfg (List.range' 1 n)
      (connectInner cfg 0 (List.range' 1 n) ps []).1
      (connectInner cfg 0 (List.range' 1 n) ps []).2
    rw [ht2eq, hinner]
    rw [List.nil_append, List.filter_append]
    have hkeep : List.filter (fun e => e.i == 0)
        (((List.range' 1 n).filter (fun j =>
          decide (pairDistSq ps 0 j < cfg.connectionDistance ^ 2))).map
          (fun j => (⟨0, j, pairDistSq ps 0 j⟩ : Edge))) =
        ((List.range' 1 n).filter (fun j =>
          decide (pairDistSq ps 0 j < cfg.connectionDistance ^ 2))).map
          (fun j => (⟨0, j, pairDistSq ps 0 j⟩ : Edge)) := by
      apply List.filter_eq_self.mpr
      intro e he
      obtain ⟨j, hjm, hje⟩ := List.mem_map.mp he
      rw [← hje]
      simp
    have hdrop : t2.filter (fun e => e.i == 0) = [] := by
      apply List.filter_eq_nil_iff.mpr
      intro e he
      have hmem := ht2i e he
      have hge1 := (List.mem_range'_1.mp hmem).1
      simp only [beq_iff_eq]
      omega
    rw [hkeep, hdrop, List.append_nil, List.map_map]
    rw [show (Edge.j ∘ fun j => (⟨0, j, pairDistSq ps 0 j⟩ : Edge)) = fun j => j from rfl]
    simp

/-- Witness for C2 amended on the three collinear particles under
maxConnections = 1. -/
theorem c2_amended_witness :
    cfgMax1.maxConnections = 1 ∧ (∀ p ∈ threeRow, p.connections = 0) ∧
    1 ≤ threeRow.length ∧
    ((drawConnections cfgMax1 threeRow).2.filter (fun e => e.i == 0)).map Edge.j =
      (List.range' 1 (threeRow.length - 1)).filter
        (fun j => decide (pairDistSq threeRow 0 j < cfgMax1.connectionDistance ^ 2)) :=
  ⟨rfl,
    fun p hp => by
      rcases List.mem_cons.mp hp with h | hp2
      · rw [h]; rfl
      · rcases List.mem_cons.mp hp2 with h | hp3
        · rw [h]; rfl
        · rcases List.mem_cons.mp hp3 with h | hp4
          · rw [h]; rfl
          · simp at hp4,
    by norm_num [threeRow],
    c2_amended_all_inrange_neighbors cfgMax1 threeRow rfl
      (fun p hp => by
        rcases List.mem_cons.mp hp with h | hp2
        · rw [h]; rfl
        · rcases List.mem_cons.mp hp2 with h | hp3
          · rw [h]; rfl
          · rcases List.mem_cons.mp hp3 with h | hp4
            · rw [h]; rfl
            · simp at hp4)
      (by norm_num [threeRow])⟩

end Particles
